import Mathlib

/-!
# WordleAssist: a verified shallow embedding

This file embeds the word-filtering core of the WordleAssist repository
(files `protableword.py` and `wordl.py`) into Lean and proves the
specified properties of the constraint model, the word predicate, the
chunked filter driver and the turn-by-turn constraint merge.

Modelling conventions:
* Python strings are modelled as `List Char`; Python sets of letters and
  sets of words are modelled as lists used only through membership.
* `None` (for an absent dictionary) is modelled by `Option`.
* Position indices in the forbidden-position map are modelled as natural
  numbers in the constraint core (the specified behaviour only concerns
  non-negative indices); the raw interactive parser, which runs Python's
  `int`, is modelled separately over `Int` with string dictionary keys,
  exactly as the source produces them.
* File and console I/O is modelled as pure functions from the lines read
  to the values produced (and, for the report, to the messages printed).
-/

set_option autoImplicit false

namespace WordleAssist

/-- A word is a list of characters (a Python string). -/
abbrev Word := List Char

/-- The characters Python's `str.strip()` removes: ASCII whitespace. -/
def pyIsSpace (c : Char) : Bool :=
  c == ' ' || c == '\t' || c == '\n' || c == '\r' || c == '\x0b' || c == '\x0c'

/-- Python `str.strip()`: drop leading and trailing whitespace. -/
def pyStrip (s : List Char) : List Char :=
  ((s.dropWhile pyIsSpace).reverse.dropWhile pyIsSpace).reverse

namespace protableword

/-- `if dictionary is not None and word not in dictionary: return False`
(line 37 of `protableword.py`). -/
def dictOk (word : Word) (dictionary : Option (List Word)) : Bool :=
  match dictionary with
  | some d => d.contains word
  | none => true

/-- `if any(ch in excluded_letters for ch in word): return False`
(line 39 of `protableword.py`). -/
def excludedOk (word : Word) (excluded_letters : List Char) : Bool :=
  !(word.any fun ch => excluded_letters.contains ch)

/-- `if not all(ch in word for ch in required_letters): return False`
(line 41 of `protableword.py`). -/
def requiredOk (word : Word) (required_letters : List Char) : Bool :=
  required_letters.all fun ch => word.contains ch

/-- `for i, c in enumerate(known_positions): if c is not None and word[i] != c:
return False` (lines 43-45 of `protableword.py`). -/
def knownOk (word : Word) (known_positions : List (Option Char)) : Bool :=
  known_positions.enum.all fun ic =>
    match ic.2 with
    | some c => word.get? ic.1 == some c
    | none => true

/-- `for letter, positions in forbidden_positions.items(): for pos in positions:
if pos < len(word) and word[pos] == letter: return False`
(lines 46-49 of `protableword.py`). -/
def forbiddenOk (word : Word) (forbidden_positions : List (Char × List Nat)) : Bool :=
  forbidden_positions.all fun lp =>
    lp.2.all fun pos =>
      !(decide (pos < word.length) && (word.get? pos == some lp.1))

/-- `if illegal_combos: for i in range(len(word)-1):
if word[i:i+2].lower() in illegal_combos: return False`
(lines 50-53 of `protableword.py`).  The Python truthiness test on the set
skips the loop when the set is empty. -/
def illegalOk (word : Word) (illegal_combos : List Word) : Bool :=
  if illegal_combos.isEmpty then true
  else
    (List.range (word.length - 1)).all fun i =>
      !(illegal_combos.contains (((word.drop i).take 2).map Char.toLower))

/-- `check_word` of `protableword.py` (lines 35-54): the word predicate.
True iff the word passes the dictionary, excluded-letter, required-letter,
known-position, forbidden-position and illegal-pair checks, in the
source's short-circuit order. -/
def check_word (word : Word) (excluded_letters required_letters : List Char)
    (known_positions : List (Option Char))
    (forbidden_positions : List (Char × List Nat))
    (dictionary : Option (List Word)) (illegal_combos : List Word) : Bool :=
  dictOk word dictionary
    && excludedOk word excluded_letters
    && requiredOk word required_letters
    && knownOk word known_positions
    && forbiddenOk word forbidden_positions
    && illegalOk word illegal_combos

/-- `filter_chunk` of `protableword.py` (lines 56-60): keep the words of a
chunk that satisfy `check_word`, in order. -/
def filter_chunk (chunk : List Word) (excluded_letters required_letters : List Char)
    (known_positions : List (Option Char))
    (forbidden_positions : List (Char × List Nat))
    (dictionary : Option (List Word)) (illegal_combos : List Word) : List Word :=
  chunk.filter fun w =>
    check_word w excluded_letters required_letters known_positions
      forbidden_positions dictionary illegal_combos

/-- `load_dictionary` of `protableword.py` (lines 12-20), as the pure
transformation applied to the lines of an existing dictionary file:
`{line.strip().lower() for line in f if len(line.strip()) == word_length}`.
The set comprehension is modelled as the list of its results. -/
def load_dictionary (word_length : Nat) (lines : List (List Char)) : List Word :=
  (lines.filter fun line => (pyStrip line).length == word_length).map
    fun line => (pyStrip line).map Char.toLower

end protableword

namespace wordl

/-- `excluded_letters = set("spektogh")` (line 8 of `wordl.py`). -/
def excluded_letters : List Char := ['s', 'p', 'e', 'k', 't', 'o', 'g', 'h']

/-- `required_letters = set("au")` (line 12 of `wordl.py`). -/
def required_letters : List Char := ['a', 'u']

/-- `known_positions = [None, None, None, "a", None]` (line 17 of `wordl.py`). -/
def known_positions : List (Option Char) := [none, none, none, some 'a', none]

/-- `forbidden_positions = {"u":[2]}` (line 23 of `wordl.py`). -/
def forbidden_positions : List (Char × List Nat) := [('u', [2])]

/-- `word_length = 5` (line 26 of `wordl.py`). -/
def word_length : Nat := 5

/-- `USE_DICTIONARY = True` (line 32 of `wordl.py`). -/
def USE_DICTIONARY : Bool := true

/-- `check_word` of `wordl.py` (lines 48-74): returns the word when it
matches the module-level constraints, else `None`.  The emptiness guards
on the excluded and required sets mirror Python's truthiness tests, and
the forbidden-position bound is `pos < word_length` as in the source. -/
def check_word (word : Word) (dictionary : Option (List Word)) : Option Word :=
  if USE_DICTIONARY &&
      (match dictionary with
       | some d => !(d.contains word)
       | none => false) then none
  else if !excluded_letters.isEmpty
      && (word.any fun ch => excluded_letters.contains ch) then none
  else if !required_letters.isEmpty
      && !(required_letters.all fun ch => word.contains ch) then none
  else if !((List.range word_length).all fun i =>
      match known_positions.get? i with
      | some (some c) => word.get? i == some c
      | _ => true) then none
  else if !(forbidden_positions.all fun lp =>
      lp.2.all fun pos =>
        !(decide (pos < word_length) && (word.get? pos == some lp.1))) then none
  else some word

/-- `load_dictionary` of `wordl.py` (lines 36-45), as the pure
transformation applied to the lines of an existing dictionary file:
`{line.strip().lower() for line in f if line.strip()}` — every non-empty
stripped line is kept, regardless of its length. -/
def load_dictionary (lines : List (List Char)) : List Word :=
  (lines.filter fun line => !(pyStrip line).isEmpty).map
    fun line => (pyStrip line).map Char.toLower

end wordl

open protableword

/-- The constraint values of the spec's worked example, as they appear as
module constants in `wordl.py`: these are the parameters for claim C2. -/
def exampleKnown : List (Option Char) := [none, none, none, some 'a', none]

/-- The forbidden-position map of the worked example. -/
def exampleForbidden : List (Char × List Nat) := [('u', [2])]

/-- The admission condition exactly as the specification words it: the six
clauses of the `admit` contract.  This definition follows the spec text,
to be compared with `check_word`, which follows the source. -/
def specAdmit (word : Word) (excluded required : List Char)
    (known : List (Option Char)) (forbidden : List (Char × List Nat))
    (dictionary : Option (List Word)) (illegal : List Word) : Prop :=
  (∀ d, dictionary = some d → word ∈ d)
  ∧ (∀ ch ∈ word, ch ∉ excluded)
  ∧ (∀ ch ∈ required, ch ∈ word)
  ∧ (∀ i c, known.get? i = some (some c) → word.get? i = some c)
  ∧ (∀ lp ∈ forbidden, ∀ pos ∈ lp.2, pos < word.length → word.get? pos ≠ some lp.1)
  ∧ (∀ i, i + 1 < word.length → (word.drop i).take 2 ∉ illegal)

/-! ## The turn-over-turn constraint merge (`main`, lines 114-124) -/

/-- `master_excluded.update(excluded_letters)` and
`master_required.update(required_letters)` (lines 115-116): set union,
modelled as list append (the sets are used only through membership). -/
def mergeLetters (master delta : List Char) : List Char := master ++ delta

/-- `for i in range(word_length): if known_positions[i] is not None:
master_known_positions[i] = known_positions[i]` (lines 117-119): the
delta overwrites exactly the slots it fixes. -/
def mergeKnown (master delta : List (Option Char)) : List (Option Char) :=
  master.zipWith (fun m d => match d with | some c => some c | none => m) delta

/-- One step of lines 120-124: if the letter already has an entry in the
master dictionary, extend its position list, else create the entry. -/
def extendForbidden (master : List (Char × List Nat)) (letter : Char)
    (ps : List Nat) : List (Char × List Nat) :=
  if master.any fun e => e.1 == letter then
    master.map fun e => if e.1 == letter then (e.1, e.2 ++ ps) else e
  else master ++ [(letter, ps)]

/-- `for letter, positions in forbidden_positions.items(): ...`
(lines 120-124): merge a whole turn's forbidden positions into the
master dictionary. -/
def mergeForbidden (master delta : List (Char × List Nat)) :
    List (Char × List Nat) :=
  delta.foldl (fun m e => extendForbidden m e.1 e.2) master

/-- A turn delta does not contradict the master constraints on the fixed
positions: wherever both fix a letter, they fix the same letter. -/
def knownCompatible (master delta : List (Option Char)) : Bool :=
  (master.zip delta).all fun p =>
    match p with
    | (some c, some d) => c == d
    | _ => true

/-! ## The raw forbidden-position parser (`main`, lines 99-112) -/

/-- Python `str.split(sep)` for a single-character separator. -/
def pySplit (sep : Char) : List Char → List (List Char)
  | [] => [[]]
  | c :: rest =>
    if c == sep then [] :: pySplit sep rest
    else
      match pySplit sep rest with
      | [] => [[c]]
      | r :: rs => (c :: r) :: rs

/-- The value of a non-empty all-digit string, else `none`. -/
def pyDigits (s : List Char) : Option Nat :=
  if s.isEmpty then none
  else if s.all Char.isDigit then
    some (s.foldl (fun n c => 10 * n + (c.toNat - 48)) 0)
  else none

/-- Python `int(s)` on the strings this parser feeds it: surrounding
whitespace, an optional sign, then decimal digits; anything else raises
`ValueError`, modelled as `none`. -/
def pyInt (s : List Char) : Option Int :=
  match pyStrip s with
  | '-' :: rest => (pyDigits rest).map fun n => -(n : Int)
  | '+' :: rest => (pyDigits rest).map fun n => (n : Int)
  | t => (pyDigits t).map fun n => (n : Int)

/-- `positions = [int(p) for p in positions.split(",")] if "," in positions
else [int(positions)]` (line 106); `none` models a raised `ValueError`. -/
def parsePositions (s : List Char) : Option (List Int) :=
  if s.contains ',' then (pySplit ',' s).mapM pyInt
  else (pyInt s).map fun n => [n]

/-- Lines 105-106: `letter, positions = fp.split(":")` (raises unless the
split has exactly two parts) followed by the position parse; `none`
models the raised-and-caught exception.  The letter is a raw string —
the source never validates it. -/
def parse_fp (fp : List Char) : Option (List Char × List Int) :=
  match pySplit ':' fp with
  | [letter, positions] => (parsePositions positions).map fun ps => (letter, ps)
  | _ => none

/-- Lines 107-110: insert or extend the per-turn forbidden-position
dictionary (string keys and `int` positions, exactly as parsed). -/
def insertOrExtendRaw (acc : List (List Char × List Int)) (letter : List Char)
    (ps : List Int) : List (List Char × List Int) :=
  if acc.any fun e => e.1 == letter then
    acc.map fun e => if e.1 == letter then (e.1, e.2 ++ ps) else e
  else acc ++ [(letter, ps)]

/-- The inner input loop of lines 99-112: consume console answers until
the first blank one, building the turn's forbidden-position dictionary
and the list of error messages printed along the way.  Each answer is
stripped and lowercased first (line 101); a malformed one takes the
`except` branch: the message is printed and the loop re-prompts, leaving
the dictionary untouched.  The master constraint sets are not in scope
of this loop at all — they are merged only afterwards (lines 114-124). -/
def fp_loop (acc : List (List Char × List Int)) (msgs : List String) :
    List (List Char) → List (List Char × List Int) × List String
  | [] => (acc, msgs)
  | line :: rest =>
    let fp := (pyStrip line).map Char.toLower
    if fp.isEmpty then (acc, msgs)
    else
      match parse_fp fp with
      | none => fp_loop acc (msgs ++ ["Invalid format, try again."]) rest
      | some lp => fp_loop (insertOrExtendRaw acc lp.1 lp.2) msgs rest

/-! ## The per-turn report (`main`, lines 164-168) -/

/-- One console message of the per-turn report. -/
inductive ReportMsg where
  /-- `print(f"\nPossible words remaining: ...")` -/
  | count (n : Nat)
  /-- `print(possible_words)` -/
  | wordList (ws : List Word)
  /-- `print("Too many to display. Check output.txt.")` -/
  | tooMany
  deriving DecidableEq

/-- The report printed after each turn's filter pass (lines 164-168 of
`protableword.py`): the count always, then the full list when there are
at most 20 survivors, else the pointer to the output file. -/
def turnReport (possible_words : List Word) : List ReportMsg :=
  [ReportMsg.count possible_words.length]
    ++ (if possible_words.length ≤ 20 then [ReportMsg.wordList possible_words]
        else [ReportMsg.tooMany])

/-! # Theorems -/

/-! ## C2: the worked example -/

/-- C2: with word length 5, excluded letters {s,p,e,k,t,o,g,h}, required
letters {a,u}, known positions `[_,_,_,a,_]`, forbidden positions `{u:[2]}`,
no lexicon and no illegal pairs, the predicate admits "unfad" and rejects
"usual" — in both the `protableword.py` and the `wordl.py` variant. -/
theorem example_unfad_usual :
    check_word ['u', 'n', 'f', 'a', 'd'] ['s', 'p', 'e', 'k', 't', 'o', 'g', 'h']
        ['a', 'u'] exampleKnown exampleForbidden none [] = true
    ∧ check_word ['u', 's', 'u', 'a', 'l'] ['s', 'p', 'e', 'k', 't', 'o', 'g', 'h']
        ['a', 'u'] exampleKnown exampleForbidden none [] = false
    ∧ wordl.check_word ['u', 'n', 'f', 'a', 'd'] none = some ['u', 'n', 'f', 'a', 'd']
    ∧ wordl.check_word ['u', 's', 'u', 'a', 'l'] none = none := by
  refine ⟨?_, ?_, ?_, ?_⟩ <;> decide

/-! ## C3 and C5: the filter driver -/

/-- C3: filtering a partition of the candidate list chunk by chunk and
concatenating the chunk outputs in order yields exactly the sequential
filter of the whole list — no word is reordered, dropped or duplicated.
The hypothesis `chunks.flatten = candidates` says the chunks are
non-overlapping, union-covering and contiguous, in list order. -/
theorem filter_chunk_partition (chunks : List (List Word)) (candidates : List Word)
    (excluded required : List Char) (known : List (Option Char))
    (forbidden : List (Char × List Nat)) (dictionary : Option (List Word))
    (illegal : List Word) (h : chunks.flatten = candidates) :
    (chunks.map fun c =>
        filter_chunk c excluded required known forbidden dictionary illegal).flatten
      = filter_chunk candidates excluded required known forbidden dictionary illegal := by
  subst h
  induction chunks with
  | nil => rfl
  | cons c cs ih =>
    simp only [filter_chunk] at ih
    simp only [List.map_cons, List.flatten_cons, filter_chunk, List.filter_append, ih]

/-- Witness for C3: a concrete 2-chunk partition of a 3-word list under the
worked example's constraints. -/
theorem filter_chunk_partition_witness :
    (([[['u', 'n', 'f', 'a', 'd']], [['u', 's', 'u', 'a', 'l'], ['a', 'u', 'r', 'a', 'l']]] :
          List (List Word)).map fun c =>
        filter_chunk c ['s', 'p', 'e', 'k', 't', 'o', 'g', 'h'] ['a', 'u']
          exampleKnown exampleForbidden none []).flatten
      = filter_chunk [['u', 'n', 'f', 'a', 'd'], ['u', 's', 'u', 'a', 'l'], ['a', 'u', 'r', 'a', 'l']]
          ['s', 'p', 'e', 'k', 't', 'o', 'g', 'h'] ['a', 'u']
          exampleKnown exampleForbidden none [] :=
  filter_chunk_partition _ _ _ _ _ _ _ _ rfl

/-- C5: filtering is idempotent — applying `filter_chunk` to its own output
with the same constraint set returns that output unchanged. -/
theorem filter_chunk_idempotent (chunk : List Word)
    (excluded required : List Char) (known : List (Option Char))
    (forbidden : List (Char × List Nat)) (dictionary : Option (List Word))
    (illegal : List Word) :
    filter_chunk (filter_chunk chunk excluded required known forbidden dictionary illegal)
        excluded required known forbidden dictionary illegal
      = filter_chunk chunk excluded required known forbidden dictionary illegal := by
  simp only [filter_chunk, List.filter_filter, Bool.and_self]

/-! ## Characterisations of the predicate's components -/

theorem dictOk_iff (word : Word) (dictionary : Option (List Word)) :
    dictOk word dictionary = true ↔ ∀ d, dictionary = some d → word ∈ d := by
  cases dictionary <;> simp [dictOk]

theorem excludedOk_iff (word : Word) (excluded : List Char) :
    excludedOk word excluded = true ↔ ∀ ch ∈ word, ch ∉ excluded := by
  simp [excludedOk]

theorem requiredOk_iff (word : Word) (required : List Char) :
    requiredOk word required = true ↔ ∀ ch ∈ required, ch ∈ word := by
  simp [requiredOk]

theorem knownOk_iff (word : Word) (known : List (Option Char)) :
    knownOk word known = true ↔
      ∀ i c, known.get? i = some (some c) → word.get? i = some c := by
  simp only [knownOk, List.all_eq_true]
  constructor
  · intro h i c hk
    have hm : ((i, some c) : Nat × Option Char) ∈ known.enum := by
      rw [List.mk_mem_enum_iff_getElem?, ← List.get?_eq_getElem?]
      exact hk
    simpa using h _ hm
  · intro h ic hm
    obtain ⟨i, c⟩ := ic
    cases c with
    | none => simp
    | some c =>
      rw [List.mk_mem_enum_iff_getElem?, ← List.get?_eq_getElem?] at hm
      simpa using h i c hm

theorem forbiddenOk_iff (word : Word) (forbidden : List (Char × List Nat)) :
    forbiddenOk word forbidden = true ↔
      ∀ lp ∈ forbidden, ∀ pos ∈ lp.2,
        pos < word.length → word.get? pos ≠ some lp.1 := by
  simp [forbiddenOk, List.all_eq_true, Decidable.imp_iff_not_or, or_comm]

theorem map_toLower_of_lower (word : Word) (i : Nat)
    (hlc : ∀ c ∈ word, c.toLower = c) :
    ((word.drop i).take 2).map Char.toLower = (word.drop i).take 2 := by
  have h : ∀ c ∈ (word.drop i).take 2, Char.toLower c = c := fun c hc =>
    hlc c (List.mem_of_mem_drop (List.mem_of_mem_take hc))
  calc ((word.drop i).take 2).map Char.toLower
      = ((word.drop i).take 2).map id := List.map_congr_left h
    _ = (word.drop i).take 2 := List.map_id _

theorem illegalOk_iff (word : Word) (illegal : List Word)
    (hlc : ∀ c ∈ word, c.toLower = c) :
    illegalOk word illegal = true ↔
      ∀ i, i + 1 < word.length → (word.drop i).take 2 ∉ illegal := by
  unfold illegalOk
  by_cases he : illegal.isEmpty
  · rw [if_pos he]
    simp only [true_iff]
    intro i _ hmem
    rw [List.isEmpty_iff] at he
    simp [he] at hmem
  · rw [if_neg he]
    simp only [List.all_eq_true, List.mem_range]
    constructor
    · intro h i hi
      have := h i (by omega)
      rw [map_toLower_of_lower word i hlc] at this
      simpa using this
    · intro h i hi
      have := h i (by omega)
      rw [map_toLower_of_lower word i hlc]
      simpa using this

/-! ## C1: the word predicate, clause by clause -/

/-- C1: for a lowercase word of the configured word length, `check_word`
returns `true` if and only if the six admission clauses of the contract
all hold: lexicon membership (when a lexicon is given), no excluded
letter, all required letters present, all fixed positions matched, no
letter at a forbidden in-range position, and no adjacent pair in the
illegal-pair set (when given). -/
theorem check_word_iff_specAdmit (word : Word) (excluded required : List Char)
    (known : List (Option Char)) (forbidden : List (Char × List Nat))
    (dictionary : Option (List Word)) (illegal : List Word)
    (_hlen : word.length = known.length) (hlc : ∀ c ∈ word, c.toLower = c) :
    check_word word excluded required known forbidden dictionary illegal = true
      ↔ specAdmit word excluded required known forbidden dictionary illegal := by
  simp only [check_word, Bool.and_eq_true, specAdmit]
  rw [dictOk_iff, excludedOk_iff, requiredOk_iff, knownOk_iff, forbiddenOk_iff,
    illegalOk_iff word illegal hlc]
  tauto

/-- Witness for C1: the contract instantiated on the worked example's word
"unfad" with a one-word lexicon and one illegal pair. -/
theorem check_word_iff_specAdmit_witness :
    check_word ['u', 'n', 'f', 'a', 'd'] ['s', 'p', 'e', 'k', 't', 'o', 'g', 'h']
        ['a', 'u'] exampleKnown exampleForbidden
        (some [['u', 'n', 'f', 'a', 'd']]) [['q', 'z']] = true
      ↔ specAdmit ['u', 'n', 'f', 'a', 'd'] ['s', 'p', 'e', 'k', 't', 'o', 'g', 'h']
        ['a', 'u'] exampleKnown exampleForbidden
        (some [['u', 'n', 'f', 'a', 'd']]) [['q', 'z']] :=
  check_word_iff_specAdmit _ _ _ _ _ _ _ (by decide) (by decide)

/-! ## C4 and C6: the constraint merge -/

theorem mergeKnown_get? (master delta : List (Option Char)) (i : Nat) :
    (mergeKnown master delta).get? i =
      match master.get? i, delta.get? i with
      | some m, some d => some (match d with | some c => some c | none => m)
      | _, _ => none := by
  induction master generalizing delta i with
  | nil => cases delta <;> cases i <;> simp [mergeKnown]
  | cons m ms ih =>
    cases delta with
    | nil => cases i <;> simp [mergeKnown]
    | cons d ds =>
      cases i with
      | zero => simp [mergeKnown]
      | succ n => simpa [mergeKnown] using ih ds n

theorem knownCompatible_spec (master delta : List (Option Char))
    (hc : knownCompatible master delta = true) (i : Nat) (c d : Char)
    (hm : master.get? i = some (some c)) (hd : delta.get? i = some (some d)) :
    c = d := by
  induction master generalizing delta i with
  | nil => simp at hm
  | cons m ms ih =>
    cases delta with
    | nil => simp at hd
    | cons e es =>
      simp only [knownCompatible, List.zip_cons_cons, List.all_cons,
        Bool.and_eq_true] at hc
      cases i with
      | zero =>
        simp only [List.get?] at hm hd
        obtain rfl := Option.some.inj hm
        obtain rfl := Option.some.inj hd
        simpa using hc.1
      | succ n =>
        simp only [List.get?] at hm hd
        exact ih es hc.2 n hm hd

theorem excludedOk_of_append (word : Word) (a b : List Char)
    (h : excludedOk word (mergeLetters a b) = true) : excludedOk word a = true := by
  rw [excludedOk_iff] at h ⊢
  intro ch hch hmem
  exact h ch hch (List.mem_append_left b hmem)

theorem requiredOk_of_append (word : Word) (a b : List Char)
    (h : requiredOk word (mergeLetters a b) = true) : requiredOk word a = true := by
  rw [requiredOk_iff] at h ⊢
  intro ch hch
  exact h ch (List.mem_append_left b hch)

theorem knownOk_of_merge (word : Word) (master delta : List (Option Char))
    (hlen : delta.length = master.length)
    (hc : knownCompatible master delta = true)
    (h : knownOk word (mergeKnown master delta) = true) :
    knownOk word master = true := by
  rw [knownOk_iff] at h ⊢
  intro i c hm
  have hi : i < master.length := by
    by_contra hge
    rw [List.get?_eq_none.mpr (by omega)] at hm
    exact Option.noConfusion hm
  have hid : i < delta.length := hlen ▸ hi
  obtain ⟨dopt, hd⟩ : ∃ dopt, delta.get? i = some dopt :=
    ⟨delta.get ⟨i, hid⟩, List.get?_eq_get hid⟩
  cases dopt with
  | none =>
    apply h i c
    rw [mergeKnown_get?, hm, hd]
  | some d =>
    obtain rfl := knownCompatible_spec master delta hc i c d hm hd
    apply h i c
    rw [mergeKnown_get?, hm, hd]

theorem extendForbidden_superset (master : List (Char × List Nat)) (letter : Char)
    (ps : List Nat) (lp : Char × List Nat) (hm : lp ∈ master) :
    ∃ qs, (lp.1, qs) ∈ extendForbidden master letter ps ∧ ∀ x ∈ lp.2, x ∈ qs := by
  unfold extendForbidden
  by_cases hany : master.any fun e => e.1 == letter
  · rw [if_pos hany]
    by_cases hl : lp.1 = letter
    · refine ⟨lp.2 ++ ps, ?_, fun x hx => List.mem_append_left ps hx⟩
      have he : (fun e => if e.1 == letter then (e.1, e.2 ++ ps) else e) lp
          = (lp.1, lp.2 ++ ps) := by simp [hl]
      exact he ▸ List.mem_map_of_mem _ hm
    · refine ⟨lp.2, ?_, fun x hx => hx⟩
      have he : (fun e => if e.1 == letter then (e.1, e.2 ++ ps) else e) lp = lp := by
        simp [hl]
      have hmem : lp ∈ master.map fun e => if e.1 == letter then (e.1, e.2 ++ ps) else e :=
        he ▸ List.mem_map_of_mem _ hm
      simpa using hmem
  · rw [if_neg hany]
    exact ⟨lp.2, List.mem_append_left _ (by simpa using hm), fun x hx => hx⟩

theorem mergeForbidden_superset (master delta : List (Char × List Nat))
    (lp : Char × List Nat) (hm : lp ∈ master) :
    ∃ qs, (lp.1, qs) ∈ mergeForbidden master delta ∧ ∀ x ∈ lp.2, x ∈ qs := by
  induction delta generalizing master lp with
  | nil => exact ⟨lp.2, by simpa [mergeForbidden] using hm, fun x hx => hx⟩
  | cons e es ih =>
    obtain ⟨qs, hq, hsub⟩ := extendForbidden_superset master e.1 e.2 lp hm
    obtain ⟨rs, hr, hsub2⟩ := ih (extendForbidden master e.1 e.2) (lp.1, qs) hq
    exact ⟨rs, by simpa [mergeForbidden] using hr,
      fun x hx => hsub2 x (hsub x hx)⟩

theorem forbiddenOk_of_merge (word : Word) (master delta : List (Char × List Nat))
    (h : forbiddenOk word (mergeForbidden master delta) = true) :
    forbiddenOk word master = true := by
  rw [forbiddenOk_iff] at h ⊢
  intro lp hlp pos hpos hlt
  obtain ⟨qs, hq, hsub⟩ := mergeForbidden_superset master delta lp hlp
  exact h (lp.1, qs) hq pos (hsub pos hpos) hlt

/-- C4: constraint merging is monotonic.  For a turn delta whose newly
fixed positions do not contradict the master constraints, every word the
predicate admits under the merged constraint set is already admitted
under the master set: the admitted set can only shrink or stay equal. -/
theorem check_word_merge_monotone (word : Word)
    (excluded required dExcluded dRequired : List Char)
    (known dKnown : List (Option Char))
    (forbidden dForbidden : List (Char × List Nat))
    (dictionary : Option (List Word)) (illegal : List Word)
    (hlen : dKnown.length = known.length)
    (hcompat : knownCompatible known dKnown = true)
    (h : check_word word (mergeLetters excluded dExcluded)
        (mergeLetters required dRequired) (mergeKnown known dKnown)
        (mergeForbidden forbidden dForbidden) dictionary illegal = true) :
    check_word word excluded required known forbidden dictionary illegal = true := by
  simp only [check_word, Bool.and_eq_true] at h ⊢
  obtain ⟨⟨⟨⟨⟨h1, h2⟩, h3⟩, h4⟩, h5⟩, h6⟩ := h
  exact ⟨⟨⟨⟨⟨h1, excludedOk_of_append word excluded dExcluded h2⟩,
    requiredOk_of_append word required dRequired h3⟩,
    knownOk_of_merge word known dKnown hlen hcompat h4⟩,
    forbiddenOk_of_merge word forbidden dForbidden h5⟩, h6⟩

/-- Witness for C4: a delta adding an excluded letter, a required letter,
a newly fixed position and a forbidden position, on the word "unfad". -/
theorem check_word_merge_monotone_witness :
    check_word ['u', 'n', 'f', 'a', 'd'] ['s', 'p'] ['a']
        [none, none, none, some 'a', none] [('u', [2])] none [] = true :=
  check_word_merge_monotone ['u', 'n', 'f', 'a', 'd'] ['s', 'p'] ['a'] ['e'] ['u']
    [none, none, none, some 'a', none] [some 'u', none, none, some 'a', none]
    [('u', [2])] [('u', [1]), ('d', [0])] none [] (by decide) (by decide) (by decide)

/-- C6: the merge never unfixes a known position.  If the master fixes
position `i` to some letter before the merge, then after the merge the
slot still holds a letter: the delta's letter when the delta fixes `i`,
and the original letter (never "unknown") otherwise. -/
theorem mergeKnown_never_unfixes (master delta : List (Option Char))
    (hlen : delta.length = master.length) (i : Nat) (c : Char)
    (hm : master.get? i = some (some c)) :
    ∃ c', (mergeKnown master delta).get? i = some (some c')
      ∧ (delta.get? i = some (some c')
        ∨ (delta.get? i = some none ∧ c' = c)) := by
  have hi : i < master.length := by
    by_contra hge
    rw [List.get?_eq_none.mpr (by omega)] at hm
    exact Option.noConfusion hm
  have hid : i < delta.length := hlen ▸ hi
  obtain ⟨dopt, hd⟩ : ∃ dopt, delta.get? i = some dopt :=
    ⟨delta.get ⟨i, hid⟩, List.get?_eq_get hid⟩
  cases dopt with
  | some d =>
    refine ⟨d, ?_, Or.inl hd⟩
    rw [mergeKnown_get?, hm, hd]
  | none =>
    refine ⟨c, ?_, Or.inr ⟨hd, rfl⟩⟩
    rw [mergeKnown_get?, hm, hd]

/-- Witness for C6: position 3 stays fixed at 'a' across a merge whose
delta leaves it unknown. -/
theorem mergeKnown_never_unfixes_witness :
    ∃ c', (mergeKnown [none, none, none, some 'a', none]
        [some 'u', none, none, none, none]).get? 3 = some (some c')
      ∧ (([some 'u', none, none, none, none] :
            List (Option Char)).get? 3 = some (some c')
        ∨ (([some 'u', none, none, none, none] :
            List (Option Char)).get? 3 = some none ∧ c' = 'a')) :=
  mergeKnown_never_unfixes [none, none, none, some 'a', none]
    [some 'u', none, none, none, none] (by decide) 3 'a' (by decide)

/-! ## C7: dictionary loading -/

/-- C7: in the `protableword.py` variant every loaded lexicon entry is the
trimmed, lowercased form of an input line and has exactly the configured
word length; in the `wordl.py` variant the loaded entries are exactly the
trimmed, lowercased forms of the non-empty lines, regardless of length. -/
theorem load_dictionary_length_filter (word_length : Nat) (lines : List (List Char)) :
    (∀ w ∈ protableword.load_dictionary word_length lines,
        (∃ line ∈ lines, w = (pyStrip line).map Char.toLower)
          ∧ w.length = word_length)
    ∧ (∀ w, w ∈ wordl.load_dictionary lines ↔
        ∃ line ∈ lines, pyStrip line ≠ []
          ∧ w = (pyStrip line).map Char.toLower) := by
  constructor
  · intro w hw
    simp only [protableword.load_dictionary, List.mem_map, List.mem_filter] at hw
    obtain ⟨line, ⟨hl, hlen⟩, rfl⟩ := hw
    refine ⟨⟨line, hl, rfl⟩, ?_⟩
    rw [List.length_map]
    exact beq_iff_eq.mp hlen
  · intro w
    simp only [wordl.load_dictionary, List.mem_map, List.mem_filter]
    constructor
    · rintro ⟨line, ⟨hl, hne⟩, rfl⟩
      exact ⟨line, hl, by simpa [List.isEmpty_iff] using hne, rfl⟩
    · rintro ⟨line, hl, hne, rfl⟩
      exact ⟨line, ⟨hl, by simpa [List.isEmpty_iff] using hne⟩, rfl⟩

/-- Witness for C7: the theorem applied to a concrete file with a short
line, a padded five-letter line and a blank line. -/
theorem load_dictionary_length_filter_witness :
    (∀ w ∈ protableword.load_dictionary 5
        [['c', 'a', 't'], [' ', 'U', 'N', 'F', 'A', 'D', '\n'], [' ', '\n']],
        (∃ line ∈ [['c', 'a', 't'], [' ', 'U', 'N', 'F', 'A', 'D', '\n'], [' ', '\n']],
            w = (pyStrip line).map Char.toLower)
          ∧ w.length = 5)
    ∧ (∀ w, w ∈ wordl.load_dictionary
        [['c', 'a', 't'], [' ', 'U', 'N', 'F', 'A', 'D', '\n'], [' ', '\n']] ↔
        ∃ line ∈ [['c', 'a', 't'], [' ', 'U', 'N', 'F', 'A', 'D', '\n'], [' ', '\n']],
          pyStrip line ≠ [] ∧ w = (pyStrip line).map Char.toLower) :=
  load_dictionary_length_filter 5
    [['c', 'a', 't'], [' ', 'U', 'N', 'F', 'A', 'D', '\n'], [' ', '\n']]

/-! ## C8: malformed forbidden-position entries -/

/-- C8: a console answer whose stripped, lowercased form is non-blank but
does not parse as `letter:pos[,pos...]` takes the caught-exception path:
the error message is reported, the loop goes on to the next prompt (the
turn is not aborted), and the turn's already-parsed forbidden-position
dictionary is left exactly as it was.  The master constraint sets are
merged only after this loop finishes, so an equal dictionary yields an
equal merge — nothing previously accumulated is disturbed. -/
theorem fp_loop_malformed (acc : List (List Char × List Int)) (msgs : List String)
    (line : List Char) (rest : List (List Char))
    (hne : (pyStrip line).map Char.toLower ≠ [])
    (hbad : parse_fp ((pyStrip line).map Char.toLower) = none) :
    fp_loop acc msgs (line :: rest)
      = fp_loop acc (msgs ++ ["Invalid format, try again."]) rest := by
  have hne' : ((pyStrip line).map Char.toLower).isEmpty = false := by
    simpa [List.isEmpty_iff] using hne
  simp [fp_loop, hne', hbad]

/-- Witness for C8: the malformed entry "u:x" is skipped with a report,
and the dictionary parsed so far survives unchanged. -/
theorem fp_loop_malformed_witness :
    fp_loop [(['r'], [(0 : Int)])] [] [['u', ':', 'x']]
      = fp_loop [(['r'], [(0 : Int)])] ([] ++ ["Invalid format, try again."]) [] :=
  fp_loop_malformed [(['r'], [(0 : Int)])] [] ['u', ':', 'x'] []
    (by decide) (by decide)

/-! ## C9: the per-turn report -/

/-- C9: after each turn's filter pass the survivor count is always
reported, the full surviving list is surfaced exactly when the count is
at most 20, and the pointer to the persisted output file is shown exactly
otherwise. -/
theorem turnReport_spec (possible_words : List Word) :
    ReportMsg.count possible_words.length ∈ turnReport possible_words
    ∧ (ReportMsg.wordList possible_words ∈ turnReport possible_words
        ↔ possible_words.length ≤ 20)
    ∧ (ReportMsg.tooMany ∈ turnReport possible_words
        ↔ ¬ possible_words.length ≤ 20) := by
  unfold turnReport
  by_cases h : possible_words.length ≤ 20 <;> simp [h]

/-! ## C10: out-of-range forbidden positions are inert -/

theorem forbiddenOk_filter_inRange (word : Word)
    (forbidden : List (Char × List Nat)) :
    forbiddenOk word (forbidden.map fun lp =>
        (lp.1, lp.2.filter fun pos => decide (pos < word.length)))
      = forbiddenOk word forbidden := by
  rw [Bool.eq_iff_iff, forbiddenOk_iff, forbiddenOk_iff]
  constructor
  · intro h lp hlp pos hpos hlt
    exact h (lp.1, lp.2.filter fun p => decide (p < word.length))
      (List.mem_map_of_mem _ hlp) pos
      (List.mem_filter.mpr ⟨hpos, by simpa using hlt⟩) hlt
  · intro h lp hlp pos hpos hlt
    obtain ⟨lq, hlq, heq⟩ := List.mem_map.mp hlp
    subst heq
    exact h lq hlq pos (List.mem_of_mem_filter hpos) hlt

/-- C10: a forbidden position at or beyond the end of the word is silently
ignored by the predicate — deleting every such position from the
forbidden-position map leaves `check_word` unchanged on that word, so an
out-of-range position can never cause a rejection; the embedded check
consults `word` only under its `pos < len(word)` bound, mirroring the
source's guard placed before the indexing. -/
theorem check_word_out_of_range_inert (word : Word)
    (excluded required : List Char) (known : List (Option Char))
    (forbidden : List (Char × List Nat)) (dictionary : Option (List Word))
    (illegal : List Word) :
    check_word word excluded required known
        (forbidden.map fun lp =>
          (lp.1, lp.2.filter fun pos => decide (pos < word.length)))
        dictionary illegal
      = check_word word excluded required known forbidden dictionary illegal := by
  simp only [check_word, forbiddenOk_filter_inRange]

end WordleAssist
